import Mathlib

/-!
# Verification of the Amplifier VS Code extension's subprocess bridge

A shallow embedding, in Lean 4, of the process-bridge logic of
`src-extension/provider.ts` (class `AmplifierChatProvider`), together with
theorems settling the specification's claims about it.

Strings from the worker's stdout are modelled as `List Char`; the external
`JSON.parse` is modelled as an abstract total function
`parse : List Char → Option α` (a parse failure — a thrown exception caught
by the decoder's `try/catch` — is `none`).
-/

namespace AmplifierBridge

/-! ## Wire codec: `handleBridgeResponse` (provider.ts lines 209–235)

The decoder appends the chunk to `responseBuffer`, splits on `'\n'`
(`this.responseBuffer.split('\n')`), pops the final element back into the
buffer (`lines.pop() || ''`), and for each remaining line: skips it when
`line.trim()` is empty, otherwise attempts `JSON.parse`, skipping (with a
logged warning) lines that fail to parse. -/

/-- JavaScript `String.prototype.split('\n')`: the list of segments of `s`
separated by `'\n'`. Always returns at least one element (on `[]` it
returns `[[]]`, matching `''.split('\n') === ['']`). -/
def splitNl : List Char → List (List Char)
  | [] => [[]]
  | c :: rest =>
    if c = '\n' then [] :: splitNl rest
    else
      match splitNl rest with
      | [] => [[c]]
      | l :: ls => (c :: l) :: ls

/-- Whitespace as recognised by JavaScript `String.prototype.trim`
(restricted to the ASCII range, which is all the bridge ever emits). -/
def isWsChar (c : Char) : Bool :=
  c = ' ' || c = '\t' || c = '\n' || c = '\r' || c = '\x0b' || c = '\x0c'

/-- JavaScript `String.prototype.trim`: drop whitespace from both ends. -/
def trim (s : List Char) : List Char :=
  ((s.dropWhile isWsChar).reverse.dropWhile isWsChar).reverse

/-- Decoding of one complete line (loop body of `handleBridgeResponse`):
a line whose `trim` is empty is skipped (`if (!line.trim()) continue`);
otherwise `JSON.parse` is attempted, and a parse failure is skipped. -/
def decodeLine (parse : List Char → Option α) (line : List Char) : Option α :=
  if trim line = [] then none else parse line

/-- One invocation of `handleBridgeResponse` on chunk `chunk` with retained
buffer `buf`: returns the decoded messages of the complete lines, in
stream order, and the new retained buffer (`lines.pop() || ''`). -/
def feed (parse : List Char → Option α) (buf chunk : List Char) :
    List α × List Char :=
  let lines := splitNl (buf ++ chunk)
  (lines.dropLast.filterMap (decodeLine parse), lines.getLastD [])

/-- Feeding a sequence of chunks one invocation at a time, starting from
buffer `buf`, accumulating all decoded messages in order. -/
def feedAll (parse : List Char → Option α) (buf : List Char) :
    List (List Char) → List α × List Char
  | [] => ([], buf)
  | c :: cs =>
    let r := feed parse buf c
    let r' := feedAll parse r.2 cs
    (r.1 ++ r'.1, r'.2)

/-! ### Basic facts about `splitNl` -/

theorem splitNl_ne_nil (s : List Char) : splitNl s ≠ [] := by
  cases s with
  | nil => simp [splitNl]
  | cons c rest =>
    simp only [splitNl]
    split
    · simp
    · cases h : splitNl rest <;> simp

theorem not_mem_of_mem_splitNl {s l : List Char} (h : l ∈ splitNl s) :
    '\n' ∉ l := by
  induction s generalizing l with
  | nil => simp [splitNl] at h; simp [h]
  | cons c rest ih =>
    simp only [splitNl] at h
    by_cases hc : c = '\n'
    · simp [hc] at h
      rcases h with h | h
      · simp [h]
      · exact ih h
    · simp [hc] at h
      cases hs : splitNl rest with
      | nil => exact absurd hs (splitNl_ne_nil rest)
      | cons l0 ls =>
        rw [hs] at h
        simp at h
        rcases h with h | h
        · subst h
          intro hmem
          rcases List.mem_cons.mp hmem with h | h
          · exact hc h.symm
          · exact ih (by rw [hs]; exact List.mem_cons_self l0 ls) h
        · exact ih (by rw [hs]; exact List.mem_cons_of_mem l0 h)

/-- A newline-free string splits into the single segment it is. -/
theorem splitNl_of_not_mem {s : List Char} (h : '\n' ∉ s) :
    splitNl s = [s] := by
  induction s with
  | nil => simp [splitNl]
  | cons c rest ih =>
    simp only [List.mem_cons, not_or] at h
    simp only [splitNl]
    rw [if_neg (fun hc => h.1 hc.symm), ih h.2]

/-- Splitting a string that starts with a newline-free segment followed by
an explicit newline peels off that segment. -/
theorem splitNl_append_cons {pre : List Char} (h : '\n' ∉ pre)
    (rest : List Char) :
    splitNl (pre ++ '\n' :: rest) = pre :: splitNl rest := by
  induction pre with
  | nil => simp [splitNl]
  | cons c p ih =>
    simp only [List.mem_cons, not_or] at h
    simp only [List.cons_append, splitNl, List.append_eq]
    rw [if_neg (fun hc => h.1 hc.symm), ih h.2]

/-! ### A per-character characterisation of `feed`

`feed` is defined exactly as the source does it (append, split, pop); to
reason about chunk boundaries we show it equals a left fold over the
chunk's characters carrying the retained buffer. -/

/-- Processing a single character: a newline completes the buffered line
(decoding it), any other character is appended to the buffer. -/
def stepChar (parse : List Char → Option α) (st : List α × List Char)
    (c : Char) : List α × List Char :=
  if c = '\n' then (st.1 ++ (decodeLine parse st.2).toList, [])
  else (st.1, st.2 ++ [c])

theorem getLastD_mem {l : List α} (h : l ≠ []) (d : α) : l.getLastD d ∈ l := by
  induction l generalizing d with
  | nil => exact absurd rfl h
  | cons a t ih =>
    cases t with
    | nil => simp [List.getLastD]
    | cons b u =>
      rw [List.getLastD_cons]
      exact List.mem_cons_of_mem a (ih (by simp) a)

theorem getLastD_irrel {l : List α} (h : l ≠ []) (d d' : α) :
    l.getLastD d = l.getLastD d' := by
  cases l with
  | nil => exact absurd rfl h
  | cons a t => rw [List.getLastD_cons, List.getLastD_cons]

/-- The retained decode buffer after any invocation of the decoder contains
no newline character (invariant of `handleBridgeResponse`). -/
theorem newline_not_mem_feed_snd (parse : List Char → Option α)
    (buf chunk : List Char) : '\n' ∉ (feed parse buf chunk).2 := by
  simp only [feed]
  exact not_mem_of_mem_splitNl
    (getLastD_mem (splitNl_ne_nil (buf ++ chunk)) [])

theorem stepChar_shift (parse : List Char → Option α)
    (st : List α × List Char) (c : Char) :
    stepChar parse st c =
      (st.1 ++ (stepChar parse ([], st.2) c).1,
       (stepChar parse ([], st.2) c).2) := by
  by_cases h : c = '\n' <;> simp [stepChar, h]

theorem foldl_stepChar_shift (parse : List Char → Option α)
    (l : List Char) (st : List α × List Char) :
    List.foldl (stepChar parse) st l =
      (st.1 ++ (List.foldl (stepChar parse) ([], st.2) l).1,
       (List.foldl (stepChar parse) ([], st.2) l).2) := by
  induction l generalizing st with
  | nil => simp
  | cons c rest ih =>
    rw [List.foldl_cons, List.foldl_cons, ih (stepChar parse st c),
      ih (stepChar parse ([], st.2) c), stepChar_shift parse st c]
    simp

theorem feed_eq_foldl (parse : List Char → Option α) {buf : List Char}
    (h : '\n' ∉ buf) (chunk : List Char) :
    feed parse buf chunk = List.foldl (stepChar parse) ([], buf) chunk := by
  induction chunk generalizing buf with
  | nil =>
    simp [feed, splitNl_of_not_mem h, List.getLastD]
  | cons c rest ih =>
    by_cases hc : c = '\n'
    · subst hc
      have hsplit : splitNl (buf ++ '\n' :: rest) = buf :: splitNl rest :=
        splitNl_append_cons h rest
      simp only [feed, hsplit]
      rw [List.dropLast_cons_of_ne_nil (splitNl_ne_nil rest),
        List.getLastD_cons,
        getLastD_irrel (splitNl_ne_nil rest) buf []]
      rw [List.foldl_cons]
      simp only [stepChar, if_true, List.nil_append]
      rw [foldl_stepChar_shift parse rest ((decodeLine parse buf).toList, [])]
      rw [← ih (by simp)]
      cases hd : decodeLine parse buf <;> simp [hd, feed]
    · have hkey : buf ++ c :: rest = (buf ++ [c]) ++ rest := by simp
      have hbuf : '\n' ∉ buf ++ [c] := by
        simp only [List.mem_append, List.mem_singleton, not_or]
        exact ⟨h, fun hn => hc hn.symm⟩
      have hfeed : feed parse buf (c :: rest) = feed parse (buf ++ [c]) rest := by
        simp only [feed]
        rw [hkey]
      rw [hfeed, ih hbuf, List.foldl_cons]
      simp only [stepChar, if_neg hc]

theorem feedAll_eq_feed_flatten (parse : List Char → Option α)
    {buf : List Char} (h : '\n' ∉ buf) (chunks : List (List Char)) :
    feedAll parse buf chunks = feed parse buf chunks.flatten := by
  induction chunks generalizing buf with
  | nil =>
    simp [feedAll, feed_eq_foldl parse h]
  | cons c cs ih =>
    have hb : '\n' ∉ (feed parse buf c).2 := newline_not_mem_feed_snd parse buf c
    simp only [feedAll, List.flatten_cons]
    rw [ih hb, feed_eq_foldl parse h (c ++ cs.flatten), List.foldl_append,
      ← feed_eq_foldl parse h c,
      foldl_stepChar_shift parse cs.flatten (feed parse buf c),
      ← feed_eq_foldl parse hb cs.flatten]

/-! ## Output sanitizer: `cleanAmplifierOutput` (provider.ts lines 347–384)

The sanitizer strips ANSI colour codes (`text.replace(/\x1b\[[0-9;]*m/g, '')`),
splits into lines, drops blank lines and known banner/metadata lines, rejoins
with `'\n'`, and collapses runs of three or more newlines to exactly two
(`cleaned.replace(/\n{3,}/g, '\n\n')`). -/

/-- Attempt to match the tail `[0-9;]*m` of an ANSI colour sequence at the
head of the input (the characters after `"\x1b["`); on success return the
remaining input past the `'m'`. -/
def matchAnsiBody : List Char → Option (List Char)
  | [] => none
  | c :: rest =>
    if c = 'm' then some rest
    else if c.isDigit || c = ';' then matchAnsiBody rest
    else none

/-- Fuelled scan implementing `text.replace(/\x1b\[[0-9;]*m/g, '')`: a match
can only begin at an ESC character, so on a failed match the scan resumes
one position later, exactly as the regex engine does. Each step consumes at
least one input character, so `fuel = input length` always suffices. -/
def stripAnsiFuel : Nat → List Char → List Char
  | 0, s => s
  | _ + 1, [] => []
  | fuel + 1, c :: rest =>
    if c = '\x1b' then
      match rest with
      | '[' :: rest2 =>
        match matchAnsiBody rest2 with
        | some rest' => stripAnsiFuel fuel rest'
        | none => c :: stripAnsiFuel fuel rest
      | _ => c :: stripAnsiFuel fuel rest
    else c :: stripAnsiFuel fuel rest

/-- `text.replace(/\x1b\[[0-9;]*m/g, '')`. -/
def stripAnsi (s : List Char) : List Char := stripAnsiFuel s.length s

/-- `pat.isPrefixOf s` written out for character lists. -/
def startsWithSeg : List Char → List Char → Bool
  | [], _ => true
  | _ :: _, [] => false
  | p :: ps, c :: cs => p == c && startsWithSeg ps cs

/-- JavaScript `String.prototype.includes`: `pat` occurs as a contiguous
segment of the input. -/
def containsSeg (pat : List Char) : List Char → Bool
  | [] => pat.isEmpty
  | c :: cs => startsWithSeg pat (c :: cs) || containsSeg pat cs

/-- The regex `/^[│└─\s]+$/` from the filter: a non-empty line made only of
box-drawing characters and whitespace. -/
def isBoxDrawingOnly (t : List Char) : Bool :=
  !t.isEmpty && t.all fun c => c = '│' || c = '└' || c = '─' || isWsChar c

/-- The banner/metadata test of `cleanAmplifierOutput`, applied to the
trimmed line, with the source's conditions in order. -/
def isBannerLine (t : List Char) : Bool :=
  containsSeg "Preparing bundle".toList t ||
  containsSeg "prepared successfully".toList t ||
  containsSeg "Session ID:".toList t ||
  (containsSeg "Bundle:".toList t && containsSeg "Provider:".toList t) ||
  containsSeg "🧠 Thinking".toList t ||
  t == List.replicate 60 '=' ||
  t == List.replicate 60 '-' ||
  t == "Thinking:".toList ||
  containsSeg "Token Usage".toList t ||
  containsSeg "📊".toList t ||
  isBoxDrawingOnly t

/-- The line filter of `cleanAmplifierOutput`: keep a line iff its trim is
non-empty and it is not a banner/metadata line. -/
def keepLine (line : List Char) : Bool :=
  let t := trim line
  !t.isEmpty && !isBannerLine t

/-- JavaScript `Array.prototype.join('\n')`. -/
def joinNl : List (List Char) → List Char
  | [] => []
  | [l] => l
  | l :: l' :: ls => l ++ '\n' :: joinNl (l' :: ls)

/-- Replacement text for one maximal newline run under
`replace(/\n{3,}/g, '\n\n')`. -/
def emitRun (n : Nat) : List Char :=
  if 3 ≤ n then ['\n', '\n'] else List.replicate n '\n'

/-- Scan for `replace(/\n{3,}/g, '\n\n')`, carrying the length of the
current maximal run of newlines. -/
def collapseAux : Nat → List Char → List Char
  | n, [] => emitRun n
  | n, c :: rest =>
    if c = '\n' then collapseAux (n + 1) rest
    else emitRun n ++ c :: collapseAux 0 rest

/-- `cleaned.replace(/\n{3,}/g, '\n\n')`. -/
def collapseNl (s : List Char) : List Char := collapseAux 0 s

/-- `cleanAmplifierOutput` (provider.ts lines 347–384). -/
def cleanAmplifierOutput (text : List Char) : List Char :=
  let cleaned := stripAnsi text
  let lines := splitNl cleaned
  let filtered := lines.filter keepLine
  collapseNl (joinNl filtered)

/-- No two consecutive newline characters occur in the string. -/
def noDouble : List Char → Bool
  | [] => true
  | [_] => true
  | a :: b :: rest => !(a == '\n' && b == '\n') && noDouble (b :: rest)

theorem noDouble_tail {a : Char} {t : List Char}
    (h : noDouble (a :: t) = true) : noDouble t = true := by
  cases t with
  | nil => rfl
  | cons b u =>
    simp only [noDouble, Bool.and_eq_true] at h
    exact h.2

theorem noDouble_of_not_mem {l : List Char} (h : '\n' ∉ l) :
    noDouble l = true := by
  induction l with
  | nil => rfl
  | cons a t ih =>
    cases t with
    | nil => rfl
    | cons b u =>
      simp only [List.mem_cons, not_or] at h
      have ha : (a == '\n') = false := by
        simp only [beq_eq_false_iff_ne, ne_eq]
        exact fun he => h.1 he.symm
      have ht : noDouble (b :: u) = true := by
        apply ih
        simp only [List.mem_cons, not_or]
        exact ⟨h.2.1, h.2.2⟩
      simp [noDouble, ha, ht]

theorem noDouble_append_cons {l t : List Char} (hl : '\n' ∉ l)
    (ht : noDouble ('\n' :: t) = true) :
    noDouble (l ++ '\n' :: t) = true := by
  induction l with
  | nil => simpa using ht
  | cons c l' ih =>
    simp only [List.mem_cons, not_or] at hl
    have hrest : noDouble (l' ++ '\n' :: t) = true := ih hl.2
    have hc : (c == '\n') = false := by
      simp only [beq_eq_false_iff_ne, ne_eq]
      exact fun he => hl.1 he.symm
    rw [List.cons_append]
    cases hx : l' ++ '\n' :: t with
    | nil => simp at hx
    | cons x xs =>
      rw [hx] at hrest
      simp [noDouble, hc, hrest]

theorem noDouble_joinNl {parts : List (List Char)}
    (hne : ∀ p ∈ parts, p ≠ [])
    (hnl : ∀ p ∈ parts, '\n' ∉ p) :
    noDouble (joinNl parts) = true := by
  induction parts with
  | nil => rfl
  | cons l ps ih =>
    cases ps with
    | nil => exact noDouble_of_not_mem (hnl l (by simp))
    | cons l' ps' =>
      show noDouble (l ++ '\n' :: joinNl (l' :: ps')) = true
      apply noDouble_append_cons (hnl l (by simp))
      obtain ⟨r, hr⟩ : ∃ r, joinNl (l' :: ps') = l' ++ r := by
        cases ps' with
        | nil => exact ⟨[], by simp [joinNl]⟩
        | cons a b => exact ⟨'\n' :: joinNl (a :: b), rfl⟩
      have hJ : noDouble (joinNl (l' :: ps')) = true :=
        ih (fun p hp => hne p (List.mem_cons_of_mem _ hp))
          (fun p hp => hnl p (List.mem_cons_of_mem _ hp))
      cases hl' : l' with
      | nil => exact absurd hl' (hne l' (by simp))
      | cons x xs =>
        have hx : (x == '\n') = false := by
          have hm := hnl l' (by simp)
          rw [hl'] at hm
          simp only [List.mem_cons, not_or] at hm
          simp only [beq_eq_false_iff_ne, ne_eq]
          exact fun he => hm.1 he.symm
        rw [hl'] at hr hJ
        rw [hr] at hJ ⊢
        simpa [noDouble, hx] using hJ

theorem collapseAux_zero_of_noDouble {s : List Char}
    (h : noDouble s = true) : collapseAux 0 s = s := by
  induction s with
  | nil => rfl
  | cons c rest ih =>
    by_cases hc : c = '\n'
    · subst hc
      cases rest with
      | nil => rfl
      | cons d rest' =>
        have hd : ¬(d = '\n') := by
          intro he
          subst he
          simp [noDouble] at h
        have hih : collapseAux 0 (d :: rest') = d :: rest' :=
          ih (noDouble_tail h)
        have h0 : collapseAux 0 (d :: rest') = d :: collapseAux 0 rest' := by
          simp [collapseAux, hd, emitRun]
        have h1 : collapseAux 0 rest' = rest' := by
          have h2 := h0.symm.trans hih
          injection h2
        simp [collapseAux, hd, emitRun, h1]
    · have hrest : collapseAux 0 rest = rest := by
        apply ih
        exact noDouble_tail h
      simp [collapseAux, hc, emitRun, hrest]

/-- On a string with no two consecutive newlines, the three-newline
collapse is the identity. -/
theorem collapseNl_of_noDouble {s : List Char} (h : noDouble s = true) :
    collapseNl s = s :=
  collapseAux_zero_of_noDouble h

theorem splitNl_joinNl {parts : List (List Char)}
    (h : ∀ p ∈ parts, '\n' ∉ p) (hne : parts ≠ []) :
    splitNl (joinNl parts) = parts := by
  induction parts with
  | nil => exact absurd rfl hne
  | cons l ps ih =>
    cases ps with
    | nil => simp [joinNl, splitNl_of_not_mem (h l (by simp))]
    | cons l' ps' =>
      show splitNl (l ++ '\n' :: joinNl (l' :: ps')) = _
      rw [splitNl_append_cons (h l (by simp)),
        ih (fun p hp => h p (List.mem_cons_of_mem _ hp)) (by simp)]

/-- Modelled from the claim's wording, for comparison with
`cleanAmplifierOutput`: the sanitizer as claim C7 describes it on
banner-free input — the input unchanged except for control-sequence
removal and collapsing of three or more consecutive newlines to two. -/
def specSanitize (text : List Char) : List Char := collapseNl (stripAnsi text)

/-- Comparison definition for the amended C7: control-sequence removal
followed by dropping every whitespace-only line. -/
def removeBlankLines (s : List Char) : List Char :=
  joinNl ((splitNl s).filter fun l => !(trim l).isEmpty)

/-! ## Claims about the wire codec -/

/-- C4: for every sequence of newline-terminated JSON lines and every way
of splitting that byte stream into chunks, feeding the chunks one by one
through the decoder yields exactly the same sequence of decoded messages,
in the same order (and the same retained buffer), as feeding the whole
stream as a single chunk. -/
theorem feed_chunks_eq_feed_whole (parse : List Char → Option α)
    (chunks : List (List Char)) :
    feedAll parse [] chunks = feed parse [] chunks.flatten :=
  feedAll_eq_feed_flatten parse (by simp) chunks

/-- C8: after every invocation of the decoder on any chunk, the retained
decode buffer (the incomplete trailing line) contains no newline
character. -/
theorem decode_buffer_never_contains_newline (parse : List Char → Option α)
    (buf chunk : List Char) : '\n' ∉ (feed parse buf chunk).2 :=
  newline_not_mem_feed_snd parse buf chunk

/-- C6: for every input stream containing a line that is not valid JSON
surrounded by valid JSON lines, decoding skips the malformed line and
still decodes every valid line; no error escapes the decoder (decoding is
a total function — the source's `try/catch` makes a parse failure a
logged skip). -/
theorem malformed_line_skipped_valid_lines_decoded
    (parse : List Char → Option α) {l1 l2 l3 : List Char} {m1 m3 : α}
    (h1 : '\n' ∉ l1) (h2 : '\n' ∉ l2) (h3 : '\n' ∉ l3)
    (ht1 : trim l1 ≠ []) (ht3 : trim l3 ≠ [])
    (hp1 : parse l1 = some m1) (hp2 : parse l2 = none)
    (hp3 : parse l3 = some m3) :
    feed parse [] (l1 ++ '\n' :: (l2 ++ '\n' :: (l3 ++ ['\n']))) =
      ([m1, m3], []) := by
  have hs : splitNl (l1 ++ '\n' :: (l2 ++ '\n' :: (l3 ++ ['\n']))) =
      [l1, l2, l3, []] := by
    rw [splitNl_append_cons h1, splitNl_append_cons h2,
      show l3 ++ ['\n'] = l3 ++ '\n' :: ([] : List Char) from rfl,
      splitNl_append_cons h3]
    rfl
  simp only [feed, List.nil_append, hs]
  simp [List.dropLast, decodeLine, hp1, hp2, hp3, ht1, ht3, List.getLastD]

theorem malformed_line_skipped_valid_lines_decoded_witness :
    feed (fun s => if s = ['1'] then some 1 else
        if s = ['3'] then some 3 else none)
      [] (['1'] ++ '\n' :: (['x'] ++ '\n' :: (['3'] ++ ['\n']))) =
      ([1, 3], []) :=
  malformed_line_skipped_valid_lines_decoded _ (by decide) (by decide)
    (by decide) (by decide) (by decide) (by decide) (by decide) (by decide)

/-! ## Claims about the output sanitizer -/

/-- C7 counterexample: `"a\n\nb"` has no banner/decorative line, yet the
sanitizer's output is not the input with control sequences removed and
three-plus newline runs collapsed (`specSanitize`): the blank line is
dropped outright. -/
theorem sanitizer_not_mere_collapse_counterexample :
    ((splitNl (stripAnsi "a\n\nb".toList)).all
      fun l => !isBannerLine (trim l)) = true ∧
    cleanAmplifierOutput "a\n\nb".toList ≠ specSanitize "a\n\nb".toList := by
  decide

/-- C7 (amended): for every input text none of whose lines (after
control-sequence removal) match a banner/decorative pattern, the
sanitizer's output equals the input except for removal of terminal control
sequences and removal of whitespace-only lines; because no blank line
survives the filter, the three-or-more-newline collapse never fires. -/
theorem sanitizer_on_nonbanner_input (t : List Char)
    (h : ∀ l ∈ splitNl (stripAnsi t), isBannerLine (trim l) = false) :
    cleanAmplifierOutput t = removeBlankLines (stripAnsi t) := by
  have hfilter : (splitNl (stripAnsi t)).filter keepLine =
      (splitNl (stripAnsi t)).filter (fun l => !(trim l).isEmpty) := by
    apply List.filter_congr
    intro l hl
    simp [keepLine, h l hl]
  simp only [cleanAmplifierOutput, removeBlankLines, hfilter]
  apply collapseNl_of_noDouble
  apply noDouble_joinNl
  · intro p hp
    have hk := (List.mem_filter.mp hp).2
    intro he
    rw [he] at hk
    simp [trim] at hk
  · intro p hp
    exact not_mem_of_mem_splitNl (List.mem_filter.mp hp).1

theorem sanitizer_on_nonbanner_input_witness :
    cleanAmplifierOutput "x\n\n y".toList =
      removeBlankLines (stripAnsi "x\n\n y".toList) :=
  sanitizer_on_nonbanner_input _ (by decide)

/-- C9: for every input text, the sanitizer's output contains no blank
line — no two consecutive newline characters, and (unless the output is
empty) no line whose content is only whitespace: blank lines are dropped,
not merely collapsed. -/
theorem sanitizer_output_has_no_blank_lines (t : List Char) :
    noDouble (cleanAmplifierOutput t) = true ∧
    ((splitNl (cleanAmplifierOutput t)).all
      fun l => (cleanAmplifierOutput t).isEmpty || !(trim l).isEmpty) = true := by
  have hkeep : ∀ l ∈ (splitNl (stripAnsi t)).filter keepLine, trim l ≠ [] := by
    intro l hl
    have hk := (List.mem_filter.mp hl).2
    simp only [keepLine, Bool.and_eq_true, Bool.not_eq_true'] at hk
    intro he
    rw [he] at hk
    simp at hk
  have hnl : ∀ l ∈ (splitNl (stripAnsi t)).filter keepLine, '\n' ∉ l :=
    fun l hl => not_mem_of_mem_splitNl (List.mem_filter.mp hl).1
  have hne : ∀ l ∈ (splitNl (stripAnsi t)).filter keepLine, l ≠ [] := by
    intro l hl he
    exact hkeep l hl (by rw [he]; rfl)
  have hnd : noDouble (joinNl ((splitNl (stripAnsi t)).filter keepLine)) =
      true := noDouble_joinNl hne hnl
  have hco : cleanAmplifierOutput t =
      joinNl ((splitNl (stripAnsi t)).filter keepLine) := by
    simp only [cleanAmplifierOutput]
    exact collapseNl_of_noDouble hnd
  constructor
  · rw [hco]
    exact hnd
  · by_cases hF : (splitNl (stripAnsi t)).filter keepLine = []
    · rw [hco, hF]
      simp [joinNl, splitNl]
    · rw [hco, splitNl_joinNl hnl hF, List.all_eq_true]
      intro l hl
      cases htr : trim l with
      | nil => exact absurd htr (hkeep l hl)
      | cons a b => simp [htr]

/-! ## Bridge lifecycle state machine

The provider's mutable fields relevant to the pending-call protocol:
`bridgeProcess` (whether the `ChildProcess` reference is set),
`isInitialized`, the single `'current'` entry of `pendingResponses`
(modelled as `Option CallKind`, since it can only hold the resolver of an
initialize or an execute call), the `hasReceivedResponse` flag of the
in-flight execute call, and whether its `setTimeout` timer is still armed.
Each event handler in the source becomes a function
`BridgeState → BridgeState × List Outcome`, where the outcomes are the
calls to `resolve`/`reject`/`progress.report` the handler performs. -/

inductive CallKind
  | initCall
  | execCall
  deriving DecidableEq

structure BridgeState where
  bridgeProcess : Bool
  isInitialized : Bool
  pending : Option CallKind
  hasReceivedResponse : Bool
  timerActive : Bool
  deriving DecidableEq

/-- A decoded worker message as the resolvers inspect it: the four fields
the source reads (`status`, `type`, `content`, `error`), each possibly
absent. -/
structure WireMsg where
  status : Option (List Char) := none
  type : Option (List Char) := none
  content : Option (List Char) := none
  error : Option (List Char) := none

/-- What a handler does towards the caller: report a sanitized chunk,
resolve the promise, or reject it with one of the source's errors. -/
inductive Outcome
  | chunk (s : List Char)
  | resolved
  | rejectedTimeout
  | rejectedWorkerError (e : Option (List Char))
  | rejectedUnexpectedInit
  | rejectedCancelled
  deriving DecidableEq

/-- Routing of one decoded message (`handleBridgeResponse` lines 226–230
composed with the pending call's resolver, lines 246–258 for initialize
and 311–328 for execute). With no pending call the message is logged and
discarded. -/
def routeMessage (st : BridgeState) (m : WireMsg) :
    BridgeState × List Outcome :=
  match st.pending with
  | none => (st, [])
  | some .initCall =>
    let st' := { st with timerActive := false, pending := none }
    if m.status = some "initialized".toList then
      ({ st' with isInitialized := true }, [.resolved])
    else if m.status = some "error".toList then
      (st', [.rejectedWorkerError m.error])
    else
      (st', [.rejectedUnexpectedInit])
  | some .execCall =>
    if m.type = some "response".toList then
      let st' := { st with hasReceivedResponse := true }
      let cleaned := cleanAmplifierOutput (m.content.getD [])
      if trim cleaned ≠ [] then (st', [.chunk cleaned]) else (st', [])
    else if m.type = some "error".toList then
      ({ st with timerActive := false, pending := none },
        [.rejectedWorkerError m.error])
    else if m.type = some "done".toList then
      ({ st with timerActive := false, pending := none }, [.resolved])
    else (st, [])

/-- The `setTimeout` callback firing (lines 242–244 for initialize,
298–302 for execute). The initialize callback rejects unconditionally; the
execute callback rejects only when `hasReceivedResponse` is still false.
Neither deletes the `'current'` entry. -/
def timeoutFire (st : BridgeState) : BridgeState × List Outcome :=
  let st' := { st with timerActive := false }
  match st.pending with
  | some .initCall => (st', [.rejectedTimeout])
  | some .execCall =>
    if st.hasReceivedResponse then (st', []) else (st', [.rejectedTimeout])
  | none => (st', [])

/-- The `token.onCancellationRequested` handler of `executeOnBridge`
(lines 305–309): clear the timer, delete the `'current'` entry, reject
with a cancellation error. -/
def cancelFire (st : BridgeState) : BridgeState × List Outcome :=
  ({ st with timerActive := false, pending := none }, [.rejectedCancelled])

/-- The `proc.on('close', ...)` handler (lines 199–203): drop the process
reference and clear the initialized flag. -/
def processClose (st : BridgeState) : BridgeState × List Outcome :=
  ({ st with bridgeProcess := false, isInitialized := false }, [])

/-- Registering the pending initialize call and arming its 4-minute timer
(`initializeBridge`, lines 241–258). -/
def startInitialize (st : BridgeState) : BridgeState :=
  { st with pending := some .initCall, timerActive := true }

/-- Registering the pending execute call and arming its 5-minute timer
(`executeOnBridge`, lines 295–328). -/
def startExecute (st : BridgeState) : BridgeState :=
  { st with
    pending := some .execCall
    hasReceivedResponse := false
    timerActive := true }

/-- The provider's fields at construction (lines 6–11). -/
def initialState : BridgeState :=
  { bridgeProcess := false, isInitialized := false, pending := none,
    hasReceivedResponse := false, timerActive := false }

/-! ## Claims about the bridge lifecycle -/

/-- C1 counterexample: an execute call receives one partial `response`
chunk and then no terminal (`done`/`error`) message; when the execute
timeout fires, the call is not failed with a timeout error — the timeout
callback does nothing at all, because `hasReceivedResponse` is set —
contradicting the claim that the timeout fires regardless of partial
chunks. -/
theorem execute_timeout_suppressed_after_partial_chunk :
    let st0 := startExecute
      { bridgeProcess := true, isInitialized := true, pending := none,
        hasReceivedResponse := false, timerActive := false }
    let r1 := routeMessage st0
      { type := some "response".toList, content := some "partial".toList }
    let r2 := timeoutFire r1.1
    r1.2 = [.chunk "partial".toList] ∧ r2.2 = [] ∧
      r2.1.pending = some .execCall := by
  decide

/-- C1 (amended): when the execute timeout fires while an execute call is
pending, the call fails with a timeout error if and only if no `response`
message (partial chunk included) has been received; after a partial chunk
the deadline passes without failing the call, which stays pending. -/
theorem execute_timeout_rejects_iff_no_partial (st : BridgeState)
    (h : st.pending = some .execCall) :
    (timeoutFire st).2 =
      (if st.hasReceivedResponse then [] else [.rejectedTimeout]) ∧
    (timeoutFire st).1.pending = some .execCall := by
  simp only [timeoutFire, h]
  constructor
  · by_cases hr : st.hasReceivedResponse <;> simp [hr]
  · by_cases hr : st.hasReceivedResponse <;> simp [hr, h]

theorem execute_timeout_rejects_iff_no_partial_witness :
    (timeoutFire (startExecute initialState)).2 = [.rejectedTimeout] ∧
    (timeoutFire (startExecute initialState)).1.pending =
      some .execCall := by
  simpa using
    execute_timeout_rejects_iff_no_partial (startExecute initialState) rfl

/-- C2 (code-bug evidence): when the initialize or execute timeout fires
with no message received, the call is rejected with a timeout error but
the `'current'` pending slot is NOT cleared — the timeout callbacks never
delete the entry, unlike the worker-error, done and cancellation paths. -/
theorem timeout_rejection_leaves_pending_slot_occupied :
    (timeoutFire (startInitialize initialState)).2 = [.rejectedTimeout] ∧
    (timeoutFire (startInitialize initialState)).1.pending =
      some .initCall ∧
    (timeoutFire (startExecute initialState)).2 = [.rejectedTimeout] ∧
    (timeoutFire (startExecute initialState)).1.pending =
      some .execCall := by
  decide

/-- C3 counterexample: the worker process exits while an execute call is
pending; the `close` handler clears the process reference and the
initialized flag but performs no rejection — the pending call is not
failed with a process-exited error, and the slot still holds it. -/
theorem process_exit_does_not_reject_pending_call :
    let st0 := startExecute
      { bridgeProcess := true, isInitialized := true, pending := none,
        hasReceivedResponse := false, timerActive := false }
    (processClose st0).2 = [] ∧
      (processClose st0).1.pending = some .execCall ∧
      (processClose st0).1.bridgeProcess = false ∧
      (processClose st0).1.isInitialized = false := by
  decide

/-- C3 (amended): when the worker process exits, the initialized flag is
cleared and the process reference is dropped, but a pending call is left
untouched — it is never rejected with a process-exited error and can only
fail later through its own timeout. -/
theorem process_close_clears_process_and_init_only (st : BridgeState) :
    (processClose st).1.bridgeProcess = false ∧
    (processClose st).1.isInitialized = false ∧
    (processClose st).1.pending = st.pending ∧
    (processClose st).2 = [] := by
  simp [processClose]

/-- C5: if the cancellation token fires while an execute call is pending,
the call fails with a cancellation error and the pending slot is cleared;
any message decoded afterwards — in particular any `response` message —
finds no pending call, invokes no callback, delivers no chunk, and leaves
the state unchanged. -/
theorem cancellation_rejects_and_later_messages_ignored (st : BridgeState)
    (h : st.pending = some .execCall) (m : WireMsg) :
    (cancelFire st).2 = [.rejectedCancelled] ∧
    (cancelFire st).1.pending = none ∧
    routeMessage (cancelFire st).1 m = ((cancelFire st).1, []) := by
  refine ⟨rfl, rfl, ?_⟩
  simp [cancelFire, routeMessage]

theorem cancellation_rejects_and_later_messages_ignored_witness :
    (cancelFire (startExecute initialState)).2 = [.rejectedCancelled] ∧
    (cancelFire (startExecute initialState)).1.pending = none ∧
    routeMessage (cancelFire (startExecute initialState)).1
        { type := some "response".toList, content := some "late".toList } =
      ((cancelFire (startExecute initialState)).1, []) :=
  cancellation_rejects_and_later_messages_ignored
    (startExecute initialState) rfl
    { type := some "response".toList, content := some "late".toList }

/-! ## Prompt extraction (provider.ts lines 78–83, 400–421) -/

/-- A `LanguageModelChatRequestMessage` content part: a text part with its
`value`, or any other kind of part (tool calls, images, ...). -/
inductive ChatPart
  | text (value : List Char)
  | other
  deriving DecidableEq

structure ChatRequestMessage where
  content : List ChatPart
  deriving DecidableEq

/-- The `part instanceof vscode.LanguageModelTextPart` test of
`messageToString`. -/
def partText : ChatPart → Option (List Char)
  | .text v => some v
  | .other => none

/-- `messageToString` (lines 411–421): collect the values of the text
parts and join them with `'\n'`. -/
def messageToString (m : ChatRequestMessage) : List Char :=
  joinNl (m.content.filterMap partText)

/-- `extractUserPrompt` (lines 400–406): the last message's text, or the
empty string for an empty history. -/
def extractUserPrompt (messages : List ChatRequestMessage) : List Char :=
  match messages.getLast? with
  | none => []
  | some m => messageToString m

/-- Lines 78–83 and 100: the prompt carried by the `execute` command, or
`none` when `extractUserPrompt` returns the empty (falsy) string, in which
case no command is sent at all. -/
def sentExecutePrompt (messages : List ChatRequestMessage) :
    Option (List Char) :=
  let p := extractUserPrompt messages
  if p = [] then none else some p

/-- C10: for every non-empty message history, the prompt sent to the
worker in the execute command is exactly the newline-joined text parts of
the last message — earlier messages and non-text parts never affect it —
and if the last message has no text parts no command is sent at all. -/
theorem execute_prompt_is_joined_text_of_last_message
    (ms ms' : List ChatRequestMessage) (m : ChatRequestMessage) :
    sentExecutePrompt (ms ++ [m]) = sentExecutePrompt (ms' ++ [m]) ∧
    (∀ p, sentExecutePrompt (ms ++ [m]) = some p →
      p = joinNl (m.content.filterMap partText)) ∧
    (m.content.filterMap partText = [] →
      sentExecutePrompt (ms ++ [m]) = none) := by
  have hlast : ∀ l : List ChatRequestMessage,
      (l ++ [m]).getLast? = some m := by
    intro l
    simp
  refine ⟨?_, ?_, ?_⟩
  · simp [sentExecutePrompt, extractUserPrompt, hlast]
  · intro p hp
    simp only [sentExecutePrompt, extractUserPrompt, hlast] at hp
    by_cases he : messageToString m = []
    · simp [he] at hp
    · simp only [if_neg he, Option.some.injEq] at hp
      rw [← hp]
      rfl
  · intro h0
    simp [sentExecutePrompt, extractUserPrompt, hlast, messageToString,
      h0, joinNl]

theorem execute_prompt_is_joined_text_of_last_message_witness :
    sentExecutePrompt [⟨[.other]⟩,
        ⟨[.text "a".toList, .other, .text "b".toList]⟩] =
      some ('a' :: '\n' :: ['b']) ∧
    sentExecutePrompt [⟨[.text "x".toList]⟩, ⟨[.other]⟩] = none := by
  refine ⟨by decide, ?_⟩
  exact (execute_prompt_is_joined_text_of_last_message
    [⟨[.text "x".toList]⟩] [] ⟨[.other]⟩).2.2 rfl

end AmplifierBridge

